import Mathlib

/-!
Verification of the transcription-benchmark normalization core
(`benchmark/app.py`): the timestamp parser, the diarization normalizer,
the cache-key deriver and the compression planner.

Python strings are modelled as `List Char`.  The regular expressions of
the diarization normalizer are modelled by hand-written scanners; each
pattern in the source only ever places a greedy quantifier over a
character class whose characters are disjoint from whatever the pattern
requires next, so greedy matching with backtracking is deterministic and
equals maximal munch.  Machine floats of the compression planner are
modelled as rationals, and Python's unbounded `int` as `Int`.
-/

namespace Ambien

set_option maxRecDepth 100000

/-- ASCII whitespace: models both the regex class of whitespace used by
the source patterns and the character set stripped by Python's
`str.strip()` (restricted to ASCII, which is all the source ever feeds it). -/
def isSpaceC (c : Char) : Bool :=
  c == ' ' || c == '\t' || c == '\n' || c == '\r' || c == '\x0b' || c == '\x0c'

/-- ASCII decimal digit: the regex class of digits. -/
def isDigitC (c : Char) : Bool := decide ('0' ≤ c) && decide (c ≤ '9')

/-- The 26 ASCII uppercase letters: the regex class ranging from A to Z. -/
def upperLetters : List Char := "ABCDEFGHIJKLMNOPQRSTUVWXYZ".data

/-- Membership in the uppercase class used by every speaker pattern. -/
def isUpperC (c : Char) : Bool := decide (c ∈ upperLetters)

/-- Python `str.strip()` from the right. -/
def stripEnd (l : List Char) : List Char := (l.reverse.dropWhile isSpaceC).reverse

/-- Python `str.strip()`: drop whitespace from both ends. -/
def strip (l : List Char) : List Char := stripEnd (l.dropWhile isSpaceC)

/-- Python `str.split(sep)` for a single-character separator: splits at
every occurrence, keeping empty pieces (`"".split(c) == [""]`). -/
def splitOnChar (sep : Char) : List Char → List (List Char)
  | [] => [[]]
  | c :: cs =>
    match splitOnChar sep cs, c == sep with
    | r, true => [] :: r
    | [], false => [[c]]
    | x :: xs, false => (c :: x) :: xs

/-- Python `' '.join(pieces)`. -/
def joinSp : List (List Char) → List Char
  | [] => []
  | [x] => x
  | x :: xs => x ++ ' ' :: joinSp xs

/-- Start code points of the 66 runs of Unicode decimal digits (general
category Nd): every run is exactly ten consecutive code points carrying
the decimal values 0 through 9.  Extracted from the Unicode data of the
Python runtime, whose `int()` accepts precisely these digits. -/
def ndStarts : List Nat :=
  [48, 1632, 1776, 1984, 2406, 2534, 2662, 2790, 2918, 3046, 3174,
   3302, 3430, 3558, 3664, 3792, 3872, 4160, 4240, 6112, 6160, 6470,
   6608, 6784, 6800, 6992, 7088, 7232, 7248, 42528, 43216, 43264,
   43472, 43504, 43600, 44016, 65296, 66720, 68912, 69734, 69872,
   69942, 70096, 70384, 70736, 70864, 71248, 71360, 71472, 71904,
   72016, 72784, 73040, 73120, 92768, 92864, 93008, 120782, 120792,
   120802, 120812, 120822, 123200, 123632, 125264, 130032]

/-- Look a code point up in the digit-run table. -/
def ndLookup (n : Nat) : List Nat → Option Nat
  | [] => none
  | s :: rest => if s ≤ n ∧ n < s + 10 then some (n - s) else ndLookup n rest

/-- The decimal value Python's `int()` assigns to a single character:
the ASCII digits, and every other Unicode decimal digit via the run
table; `none` for everything else. -/
def pyDigitVal (c : Char) : Option Nat :=
  if isDigitC c then some (c.toNat - 48) else ndLookup c.toNat ndStarts

/-- The characters Python's `int()` strips around a numeric literal
(the Unicode white-space set used by the numeric parser), probed from
the runtime. -/
def pyIntSpace : List Char :=
  ['\x09', '\x0a', '\x0b', '\x0c', '\x0d', ' ',
   '\x85', '\xa0', '\u1680', '\u2000', '\u2001', '\u2002',
   '\u2003', '\u2004', '\u2005', '\u2006', '\u2007', '\u2008',
   '\u2009', '\u200a', '\u2028', '\u2029', '\u202f', '\u205f',
   '\u3000']

def isPySpaceC (c : Char) : Bool := decide (c ∈ pyIntSpace)

/-- The whitespace stripping Python's `int()` performs on both ends of
its argument. -/
def pyStrip (l : List Char) : List Char :=
  ((l.dropWhile isPySpaceC).reverse.dropWhile isPySpaceC).reverse

/-- Digit-string accumulator for Python `int(...)` (base 10), with
PEP 515 underscore grouping: a single underscore may stand between two
digits and is skipped; it may not be doubled, leading or trailing. -/
def digitsAcc : Nat → List Char → Option Nat
  | acc, [] => some acc
  | acc, c :: cs =>
    if c = '_' then
      match cs with
      | [] => none
      | c2 :: cs2 =>
        match pyDigitVal c2 with
        | some d => digitsAcc (10 * acc + d) cs2
        | none => none
    else
      match pyDigitVal c with
      | some d => digitsAcc (10 * acc + d) cs
      | none => none

/-- A non-empty digit string (with legal underscore grouping) read in
base 10; `none` otherwise.  A leading underscore is rejected before the
accumulator runs. -/
def digitsToNat : List Char → Option Nat
  | [] => none
  | c :: cs => if c = '_' then none else digitsAcc 0 (c :: cs)

/-- Python `int(s)`: strips surrounding whitespace, accepts an optional
sign followed directly by a non-empty digit string (Unicode decimal
digits, underscore grouping allowed), raises (here: `none`) otherwise. -/
def pyIntChars (s : List Char) : Option Int :=
  match pyStrip s with
  | '-' :: ds =>
    match digitsToNat ds with
    | some n => some (-(n : Int))
    | none => none
  | '+' :: ds =>
    match digitsToNat ds with
    | some n => some (n : Int)
    | none => none
  | ds =>
    match digitsToNat ds with
    | some n => some (n : Int)
    | none => none

/-- The function `parse_timestamp` from `benchmark/app.py`: splits on a colon; two
pieces give minutes:seconds, three give hours:minutes:seconds, anything
else (or a piece `int()` rejects) gives `None`.  The `None`/empty-string
falsy guard of the source is the `none`/`[]` cases here. -/
def parse_timestamp : Option (List Char) → Option Int
  | none => none
  | some s =>
    if s = [] then none
    else
      match splitOnChar ':' s with
      | [a, b] =>
        match pyIntChars a, pyIntChars b with
        | some x, some y => some (x * 60 + y)
        | _, _ => none
      | [a, b, c] =>
        match pyIntChars a, pyIntChars b, pyIntChars c with
        | some x, some y, some z => some (x * 3600 + y * 60 + z)
        | _, _, _ => none
      | _ => none

/-! ### The six speaker-marker patterns

Each scanner models one regular expression of `parse_gemini_diarization`,
matched at the start of its argument; it returns the captured speaker
letter, the captured timestamp text (for the three timestamped patterns)
and the remainder of the input after the match. -/

/-- Consume an exact literal piece of a pattern. -/
def dropLit : List Char → List Char → Option (List Char)
  | [], s => some s
  | _ :: _, [] => none
  | c :: cs, d :: ds => if d == c then dropLit cs ds else none

/-- Greedy one-or-more whitespace.  In every source pattern the
quantified whitespace is followed by a non-whitespace requirement, so
maximal munch is exact. -/
def space1 : List Char → Option (List Char)
  | [] => none
  | c :: cs => if isSpaceC c then some (cs.dropWhile isSpaceC) else none

/-- Greedy optional tail of a timestamp: a colon and exactly two digits.
The pattern always requires a non-colon delimiter right after the
timestamp, so the greedy option is taken exactly when it is present. -/
def tsOpt (s : List Char) : List Char × List Char :=
  match s with
  | ':' :: a :: b :: rest =>
    if isDigitC a && isDigitC b then ([':', a, b], rest) else ([], s)
  | _ => ([], s)

/-- Greedy one-or-two leading digits (the minutes/hours field). -/
def digits12 : List Char → Option (List Char × List Char)
  | [] => none
  | [a] => if isDigitC a then some ([a], []) else none
  | a :: b :: rest =>
    if isDigitC a then
      if isDigitC b then some ([a, b], rest) else some ([a], b :: rest)
    else none

/-- Exactly two digits (the seconds field). -/
def digits2 : List Char → Option (List Char × List Char)
  | a :: b :: rest =>
    if isDigitC a && isDigitC b then some ([a, b], rest) else none
  | _ => none

/-- The timestamp sub-pattern: one or two digits, a colon, two digits,
optionally another colon and two digits.  Returns the matched text and
the rest.  A digit run of length three or more fails just as the
original's bounded quantifier does, because after the maximal one-or-two
digits a colon is required. -/
def tsMatch (s : List Char) : Option (List Char × List Char) :=
  match digits12 s with
  | none => none
  | some (mm, s1) =>
    match s1 with
    | ':' :: s2 =>
      match digits2 s2 with
      | none => none
      | some (ss, s3) =>
        match tsOpt s3 with
        | (tail, s4) => some (mm ++ ':' :: ss ++ tail, s4)
    | _ => none

/-- Optional comma (greedy, and deterministic since what follows can
never be a comma). -/
def dropComma : List Char → List Char
  | ',' :: rest => rest
  | s => s

/-- Pattern 1: bracketed speaker with timestamp —
an opening square bracket, the word Speaker, whitespace, one uppercase
letter, an optional comma, optional whitespace, a timestamp, a closing
square bracket. -/
def matchP1 (s : List Char) : Option (Char × Option (List Char) × List Char) :=
  match dropLit "[Speaker".data s with
  | none => none
  | some s1 =>
    match space1 s1 with
    | none => none
    | some s2 =>
      match s2 with
      | [] => none
      | c :: s3 =>
        if isUpperC c then
          match tsMatch ((dropComma s3).dropWhile isSpaceC) with
          | none => none
          | some (ts, s4) =>
            match s4 with
            | ']' :: rest => some (c, some ts, rest)
            | _ => none
        else none

/-- Pattern 2: bold speaker with parenthesized timestamp —
two asterisks, the word Speaker, whitespace, one uppercase letter,
optional whitespace, an opening parenthesis, a timestamp, a closing
parenthesis, a colon, two asterisks. -/
def matchP2 (s : List Char) : Option (Char × Option (List Char) × List Char) :=
  match dropLit "**Speaker".data s with
  | none => none
  | some s1 =>
    match space1 s1 with
    | none => none
    | some s2 =>
      match s2 with
      | [] => none
      | c :: s3 =>
        if isUpperC c then
          match s3.dropWhile isSpaceC with
          | '(' :: s4 =>
            match tsMatch s4 with
            | none => none
            | some (ts, s5) =>
              match s5 with
              | ')' :: ':' :: '*' :: '*' :: rest => some (c, some ts, rest)
              | _ => none
          | _ => none
        else none

/-- Pattern 3: plain speaker with parenthesized timestamp —
the word Speaker, whitespace, one uppercase letter, optional whitespace,
an opening parenthesis, a timestamp, a closing parenthesis, a colon. -/
def matchP3 (s : List Char) : Option (Char × Option (List Char) × List Char) :=
  match dropLit "Speaker".data s with
  | none => none
  | some s1 =>
    match space1 s1 with
    | none => none
    | some s2 =>
      match s2 with
      | [] => none
      | c :: s3 =>
        if isUpperC c then
          match s3.dropWhile isSpaceC with
          | '(' :: s4 =>
            match tsMatch s4 with
            | none => none
            | some (ts, s5) =>
              match s5 with
              | ')' :: ':' :: rest => some (c, some ts, rest)
              | _ => none
          | _ => none
        else none

/-- Pattern 4: bracketed speaker without timestamp. -/
def matchP4 (s : List Char) : Option (Char × Option (List Char) × List Char) :=
  match dropLit "[Speaker".data s with
  | none => none
  | some s1 =>
    match space1 s1 with
    | none => none
    | some s2 =>
      match s2 with
      | c :: ']' :: rest => if isUpperC c then some (c, none, rest) else none
      | _ => none

/-- Pattern 5: bold speaker without timestamp. -/
def matchP5 (s : List Char) : Option (Char × Option (List Char) × List Char) :=
  match dropLit "**Speaker".data s with
  | none => none
  | some s1 =>
    match space1 s1 with
    | none => none
    | some s2 =>
      match s2 with
      | c :: ':' :: '*' :: '*' :: rest => if isUpperC c then some (c, none, rest) else none
      | _ => none

/-- Pattern 6: plain speaker without timestamp. -/
def matchP6 (s : List Char) : Option (Char × Option (List Char) × List Char) :=
  match dropLit "Speaker".data s with
  | none => none
  | some s1 =>
    match space1 s1 with
    | none => none
    | some s2 =>
      match s2 with
      | c :: ':' :: rest => if isUpperC c then some (c, none, rest) else none
      | _ => none

/-- Python `re.search`: try the pattern at every position, left to
right, and return the leftmost match. -/
def searchPat (m : List Char → Option (Char × Option (List Char) × List Char)) :
    List Char → Option (Char × Option (List Char) × List Char)
  | [] => m []
  | c :: cs =>
    match m (c :: cs) with
    | some r => some r
    | none => searchPat m cs

/-- Python `re.sub(pattern, '', line)`: delete every non-overlapping
leftmost occurrence, resuming after each match.  Fuel equals the input
length; every pattern consumes at least one character, so the fuel never
runs out before the scan completes. -/
def subAllF (m : List Char → Option (Char × Option (List Char) × List Char)) :
    Nat → List Char → List Char
  | 0, s => s
  | _ + 1, [] => []
  | fuel + 1, c :: cs =>
    match m (c :: cs) with
    | some (_, _, rest) => subAllF m fuel rest
    | none => c :: subAllF m fuel cs

def subAll (m : List Char → Option (Char × Option (List Char) × List Char))
    (s : List Char) : List Char :=
  subAllF m s.length s

/-- What one pattern yields on one line: the captured speaker letter,
the captured timestamp (from the leftmost match) and the line with every
occurrence of the pattern deleted and then stripped, exactly the
sequence search-then-sub-then-strip of the source. -/
structure MarkerHit where
  speaker : Char
  ts : Option (List Char)
  residual : List Char
deriving DecidableEq, Repr

def tryPattern (m : List Char → Option (Char × Option (List Char) × List Char))
    (line : List Char) : Option MarkerHit :=
  match searchPat m line with
  | none => none
  | some (c, ts, _) => some ⟨c, ts, strip (subAll m line)⟩

/-- The pattern cascade of `parse_gemini_diarization`: the six patterns
are tried in source order and the first that matches anywhere in the
line wins. -/
def findMarker (line : List Char) : Option MarkerHit :=
  match tryPattern matchP1 line with
  | some h => some h
  | none =>
    match tryPattern matchP2 line with
    | some h => some h
    | none =>
      match tryPattern matchP3 line with
      | some h => some h
      | none =>
        match tryPattern matchP4 line with
        | some h => some h
        | none =>
          match tryPattern matchP5 line with
          | some h => some h
          | none => tryPattern matchP6 line

/-! ### The diarization normalizer -/

/-- One speaker-attributed span.  The Python dict key named end is
modelled by the field `endTime`. -/
structure Segment where
  speaker : List Char
  text : List Char
  start : Option Int
  endTime : Option Int
deriving DecidableEq, Repr

/-- The loop state of `parse_gemini_diarization`: the closed segments
and the currently open speaker, accumulated text pieces and pending
timestamp text. -/
structure PState where
  segments : List Segment
  curSpeaker : Option (List Char)
  curText : List (List Char)
  curTime : Option (List Char)
deriving DecidableEq, Repr

/-- Close the open segment: the source appends it only when both the
speaker and the accumulated text list are truthy (non-empty). -/
def closeSeg (st : PState) : List Segment :=
  match st.curSpeaker with
  | none => st.segments
  | some sp =>
    if st.curText = [] then st.segments
    else st.segments ++
      [⟨sp, strip (joinSp st.curText), parse_timestamp st.curTime, none⟩]

/-- The loop body: strip the line, skip it when blank, otherwise try the
pattern cascade.  On a marker: close the open segment, then open a new
one with the recognized speaker, the captured timestamp text and the
residual line as the first text piece when non-empty.  On no marker:
append the line to the open segment's text, or drop it when no segment
is open. -/
def processLine (st : PState) (rawLine : List Char) : PState :=
  match strip rawLine with
  | [] => st
  | line0 =>
    match findMarker line0 with
    | some hit =>
      { segments := closeSeg st
        curSpeaker := some ("Speaker ".data ++ [hit.speaker])
        curTime := hit.ts
        curText := if hit.residual = [] then [] else [hit.residual] }
    | none =>
      match st.curSpeaker with
      | some _ => { st with curText := st.curText ++ [line0] }
      | none => st

/-- One step of the merge pass: a segment whose speaker equals the last
already-merged segment's speaker has its text folded onto that segment,
joined by one space; otherwise it is appended. -/
def mergeStep (acc : List Segment) (seg : Segment) : List Segment :=
  match acc.getLast? with
  | some last =>
    if last.speaker = seg.speaker then
      acc.dropLast ++ [{ last with text := last.text ++ ' ' :: seg.text }]
    else acc ++ [seg]
  | none => [seg]

/-- The merge pass of `parse_gemini_diarization`. -/
def mergeSegments (segs : List Segment) : List Segment :=
  segs.foldl mergeStep []

/-- The end-time inference pass: every segment but the last receives the
next segment's start time when that start time is known; otherwise its
end time is left untouched. -/
def inferEnds : List Segment → List Segment
  | [] => []
  | [s] => [s]
  | s :: t :: rest =>
    (match t.start with
     | some v => { s with endTime := some v }
     | none => s) :: inferEnds (t :: rest)

/-- The function `parse_gemini_diarization` from `benchmark/app.py`: split into
lines, run the marker loop, close the final open segment, merge
consecutive same-speaker segments, then infer end times. -/
def parse_gemini_diarization (text : List Char) : List Segment :=
  let st := (splitOnChar '\n' text).foldl processLine ⟨[], none, [], none⟩
  inferEnds (mergeSegments (closeSeg st))

/-! ### The compression planner -/

/-- The failure of the compression path when no positive duration could
be determined: the source raises ValueError with a dedicated message;
the specification's error taxonomy names this case SizeError. -/
inductive CompressError
  | durationUnknown
deriving DecidableEq, Repr

/-- The verbatim message of the source's raise. -/
def compressErrorMessage : CompressError → List Char
  | .durationUnknown => "Could not determine audio duration for compression".data

/-- The planner's outcome: hand the file through untouched, or encode at
the computed bitrate (together with the fixed mono/16 kHz policy). -/
inductive CompressPlan
  | original
  | compress (bitrateKbps : Int)
deriving DecidableEq, Repr

/-- Python `int(...)` on a non-negative rational: truncation toward
zero. -/
def truncQ (q : ℚ) : Int := q.num.tdiv q.den

/-- The size/bitrate decision core of `compress_audio_for_openai`
(`benchmark/app.py`, identical in `test_all_models.py`): below the
target size nothing happens; a non-positive duration is an error;
otherwise the bitrate is the target size in kilobits divided by the
duration, clamped into the 32 to 128 kbps band. -/
def compress_audio_plan (file_size_mb durationSeconds target_mb : ℚ) :
    Except CompressError CompressPlan :=
  if file_size_mb ≤ target_mb then .ok .original
  else if durationSeconds ≤ 0 then .error .durationUnknown
  else .ok (.compress (max 32 (min (truncQ (target_mb * 8 * 1024 / durationSeconds)) 128)))

/-! ### SHA-256 (FIPS 180-4) and the cache-key deriver

`get_cache_key` calls `hashlib.sha256`; the digest is modelled here in
full, over byte lists, with 32-bit words as `Nat` reduced mod 2 ^ 32. -/

def add32 (a b : Nat) : Nat := (a + b) % 4294967296

def rotr32 (n x : Nat) : Nat := ((x >>> n) ||| (x <<< (32 - n))) % 4294967296

def not32 (x : Nat) : Nat := x ^^^ 4294967295

def bsig0 (x : Nat) : Nat := rotr32 2 x ^^^ rotr32 13 x ^^^ rotr32 22 x

def bsig1 (x : Nat) : Nat := rotr32 6 x ^^^ rotr32 11 x ^^^ rotr32 25 x

def ssig0 (x : Nat) : Nat := rotr32 7 x ^^^ rotr32 18 x ^^^ (x >>> 3)

def ssig1 (x : Nat) : Nat := rotr32 17 x ^^^ rotr32 19 x ^^^ (x >>> 10)

def chF (x y z : Nat) : Nat := (x &&& y) ^^^ (not32 x &&& z)

def majF (x y z : Nat) : Nat := (x &&& y) ^^^ (x &&& z) ^^^ (y &&& z)

/-- The 64 round constants of FIPS 180-4, written in decimal. -/
def K256 : List Nat :=
  [1116352408, 1899447441, 3049323471, 3921009573,
   961987163, 1508970993, 2453635748, 2870763221,
   3624381080, 310598401, 607225278, 1426881987,
   1925078388, 2162078206, 2614888103, 3248222580,
   3835390401, 4022224774, 264347078, 604807628,
   770255983, 1249150122, 1555081692, 1996064986,
   2554220882, 2821834349, 2952996808, 3210313671,
   3336571891, 3584528711, 113926993, 338241895,
   666307205, 773529912, 1294757372, 1396182291,
   1695183700, 1986661051, 2177026350, 2456956037,
   2730485921, 2820302411, 3259730800, 3345764771,
   3516065817, 3600352804, 4094571909, 275423344,
   430227734, 506948616, 659060556, 883997877,
   958139571, 1322822218, 1537002063, 1747873779,
   1955562222, 2024104815, 2227730452, 2361852424,
   2428436474, 2756734187, 3204031479, 3329325298]

/-- Big-endian 8-byte encoding of the message bit length. -/
def lenBytes8 (bitLen : Nat) : List Nat :=
  [(bitLen >>> 56) % 256, (bitLen >>> 48) % 256, (bitLen >>> 40) % 256,
   (bitLen >>> 32) % 256, (bitLen >>> 24) % 256, (bitLen >>> 16) % 256,
   (bitLen >>> 8) % 256, bitLen % 256]

/-- Merkle–Damgård padding: a 0x80 byte, zeros up to 56 mod 64, then the
bit length. -/
def padMessage (msg : List Nat) : List Nat :=
  msg ++ 128 :: List.replicate ((119 - msg.length % 64) % 64) 0
      ++ lenBytes8 (8 * msg.length)

/-- Split into 64-byte blocks; the fuel equals the list length, which
can never be exhausted since each step removes 64 bytes. -/
def toBlocksF : Nat → List Nat → List (List Nat)
  | 0, _ => []
  | _ + 1, [] => []
  | fuel + 1, l => l.take 64 :: toBlocksF fuel (l.drop 64)

/-- Big-endian 32-bit words from bytes. -/
def toWords : List Nat → List Nat
  | b0 :: b1 :: b2 :: b3 :: rest =>
    (((b0 * 256 + b1) * 256 + b2) * 256 + b3) :: toWords rest
  | _ => []

/-- The next word of the message schedule. -/
def newW (ws : List Nat) : Nat :=
  let t := ws.length
  add32 (add32 (ssig1 (ws.getD (t - 2) 0)) (ws.getD (t - 7) 0))
        (add32 (ssig0 (ws.getD (t - 15) 0)) (ws.getD (t - 16) 0))

/-- Extend the 16 block words by 48 scheduled words. -/
def extendW : Nat → List Nat → List Nat
  | 0, ws => ws
  | n + 1, ws => extendW n (ws ++ [newW ws])

structure Hash8 where
  h0 : Nat
  h1 : Nat
  h2 : Nat
  h3 : Nat
  h4 : Nat
  h5 : Nat
  h6 : Nat
  h7 : Nat
deriving DecidableEq, Repr

/-- The eight initial hash words of FIPS 180-4, written in decimal. -/
def initHash : Hash8 :=
  ⟨1779033703, 3144134277, 1013904242, 2773480762,
   1359893119, 2600822924, 528734635, 1541459225⟩

structure SHAState where
  a : Nat
  b : Nat
  c : Nat
  d : Nat
  e : Nat
  f : Nat
  g : Nat
  h : Nat
deriving DecidableEq, Repr

/-- One of the 64 compression rounds. -/
def shaRound (st : SHAState) (kw : Nat × Nat) : SHAState :=
  let t1 := add32 (add32 (add32 st.h (bsig1 st.e)) (add32 (chF st.e st.f st.g) kw.1)) kw.2
  let t2 := add32 (bsig0 st.a) (majF st.a st.b st.c)
  ⟨add32 t1 t2, st.a, st.b, st.c, add32 st.d t1, st.e, st.f, st.g⟩

/-- Process one 64-byte block. -/
def compressBlock (hs : Hash8) (block : List Nat) : Hash8 :=
  let ws := extendW 48 (toWords block)
  let st0 : SHAState := ⟨hs.h0, hs.h1, hs.h2, hs.h3, hs.h4, hs.h5, hs.h6, hs.h7⟩
  let stF := (K256.zip ws).foldl shaRound st0
  ⟨add32 hs.h0 stF.a, add32 hs.h1 stF.b, add32 hs.h2 stF.c, add32 hs.h3 stF.d,
   add32 hs.h4 stF.e, add32 hs.h5 stF.f, add32 hs.h6 stF.g, add32 hs.h7 stF.h⟩

/-- Big-endian bytes of one 32-bit word. -/
def bytes4 (w : Nat) : List Nat :=
  [(w >>> 24) % 256, (w >>> 16) % 256, (w >>> 8) % 256, w % 256]

/-- The full 32-byte SHA-256 digest of a byte string. -/
def sha256 (msg : List Nat) : List Nat :=
  let padded := padMessage msg
  let hF := (toBlocksF padded.length padded).foldl compressBlock initHash
  bytes4 hF.h0 ++ bytes4 hF.h1 ++ bytes4 hF.h2 ++ bytes4 hF.h3 ++
  bytes4 hF.h4 ++ bytes4 hF.h5 ++ bytes4 hF.h6 ++ bytes4 hF.h7

def hexDigitChars : List Char := "0123456789abcdef".data

def hexChar (n : Nat) : Char := hexDigitChars.getD n '0'

/-- The hexdigest of `hashlib`: two lowercase hex characters per byte. -/
def hexDigest (bytes : List Nat) : List Char :=
  bytes.flatMap fun b => [hexChar ((b / 16) % 16), hexChar (b % 16)]

/-- UTF-8 encoding, Python `str.encode()`. -/
def utf8Char (c : Char) : List Nat :=
  let n := c.toNat
  if n < 128 then [n]
  else if n < 2048 then [192 + n / 64, 128 + n % 64]
  else if n < 65536 then [224 + n / 4096, 128 + (n / 64) % 64, 128 + n % 64]
  else [240 + n / 262144, 128 + (n / 4096) % 64, 128 + (n / 64) % 64, 128 + n % 64]

def utf8Bytes (s : List Char) : List Nat := s.flatMap utf8Char

/-- Python `x or ''` for an optional string (None becomes empty; an
already empty string stays empty either way). -/
def orEmpty : Option (List Char) → List Char
  | some s => s
  | none => []

/-- The function `get_cache_key` from `benchmark/app.py`.  The filesystem stat of the
audio path is modelled by the input `mtimeStat`: `some t` when the
modification time reads as the string `t`, `none` when the read raises,
in which case the source degrades the component to the empty string. -/
def get_cache_key (audio_path : List Char) (mtimeStat : Option (List Char))
    (model : List Char) (language instructions : Option (List Char)) : List Char :=
  let mtime := orEmpty mtimeStat
  let key_data := audio_path ++ '|' :: mtime ++ '|' :: model
      ++ '|' :: orEmpty language ++ '|' :: orEmpty instructions
  (hexDigest (sha256 (utf8Bytes key_data))).take 16

/-- Delimiter join, for the specification-side definition. -/
def joinWith (sep : Char) : List (List Char) → List Char
  | [] => []
  | [x] => x
  | x :: xs => x ++ sep :: joinWith sep xs

/-- The cache-key deriver as the specification words it: concatenate
audio identity, modification time, model id, language-or-empty and
instruction-text-or-empty with a fixed delimiter, hash with SHA-256,
truncate to 16 hex characters; an unreadable modification time degrades
to the empty string. -/
def deriveKey_spec (audioIdentity : List Char) (modificationTime : Option (List Char))
    (modelId : List Char) (language instructionText : Option (List Char)) : List Char :=
  (hexDigest (sha256 (utf8Bytes (joinWith '|'
    [audioIdentity, orEmpty modificationTime, modelId,
     orEmpty language, orEmpty instructionText])))).take 16

/-! ### Decimal numerals

Canonical decimal rendering of a natural number, used to state what the
timestamp layouts of the specification mean. -/

def digitChar : Nat → Char
  | 0 => '0'
  | 1 => '1'
  | 2 => '2'
  | 3 => '3'
  | 4 => '4'
  | 5 => '5'
  | 6 => '6'
  | 7 => '7'
  | 8 => '8'
  | _ => '9'

/-- The usual decimal numeral of a natural number. -/
def decimalChars (n : Nat) : List Char :=
  if n = 0 then ['0'] else ((Nat.digits 10 n).map digitChar).reverse

/-! ### Supporting lemmas for the cache key -/

theorem hexChar_mem (n : Nat) : hexChar n ∈ hexDigitChars := by
  unfold hexChar
  rw [List.getD_eq_getElem?_getD]
  rcases h : hexDigitChars[n]? with _ | c
  · simp
    decide
  · simp
    exact List.getElem?_mem h

theorem hexDigest_length (bs : List Nat) : (hexDigest bs).length = 2 * bs.length := by
  induction bs with
  | nil => rfl
  | cons b bs ih =>
    simp [hexDigest] at ih ⊢
    omega

theorem hexDigest_mem (bs : List Nat) : ∀ c ∈ hexDigest bs, c ∈ hexDigitChars := by
  intro c hc
  unfold hexDigest at hc
  rw [List.mem_flatMap] at hc
  obtain ⟨b, _, hb⟩ := hc
  simp only [List.mem_cons, List.not_mem_nil, or_false] at hb
  rcases hb with h | h
  · exact h ▸ hexChar_mem _
  · exact h ▸ hexChar_mem _

theorem sha256_length (msg : List Nat) : (sha256 msg).length = 32 := by
  simp [sha256, bytes4]

/-! ### Theorems for the claims -/

/-- C5: the cache-key deriver equals the specification's derivation —
first 16 hex characters of the SHA-256 digest of the delimiter-joined
audio identity, modification time (empty when unreadable), model id,
language-or-empty and instruction-text-or-empty — it always returns a
16-character hex string (the function is total, hence never errors), and
identical inputs with an unchanged modification time give an identical
key. -/
theorem get_cache_key_spec_correct (audio_path : List Char) (mtimeStat : Option (List Char))
    (model : List Char) (language instructions : Option (List Char)) :
    get_cache_key audio_path mtimeStat model language instructions =
      deriveKey_spec audio_path mtimeStat model language instructions ∧
    (get_cache_key audio_path mtimeStat model language instructions).length = 16 ∧
    (∀ c ∈ get_cache_key audio_path mtimeStat model language instructions, c ∈ hexDigitChars) ∧
    (∀ mtimeStat2, mtimeStat = mtimeStat2 →
      get_cache_key audio_path mtimeStat model language instructions =
        get_cache_key audio_path mtimeStat2 model language instructions) := by
  refine ⟨by simp [get_cache_key, deriveKey_spec, joinWith, List.cons_append,
    List.append_assoc], ?_, ?_, ?_⟩
  · rw [get_cache_key, List.length_take, hexDigest_length, sha256_length]
    omega
  · intro c hc
    exact hexDigest_mem _ c (List.take_subset _ _ hc)
  · rintro _ rfl
    rfl

/-- C5 witness: the theorem applied at one concrete input, its equality
hypothesis discharged there. -/
theorem get_cache_key_spec_correct_witness :
    'a' ∈ hexDigitChars ∧
    get_cache_key "/a/b.m4a".data (some "1700000000.0".data) "whisper-1".data none none =
      get_cache_key "/a/b.m4a".data (some "1700000000.0".data) "whisper-1".data none none :=
  ⟨(get_cache_key_spec_correct "/a/b.m4a".data (some "1700000000.0".data)
      "whisper-1".data none none).2.2.1 'a' (by decide),
   (get_cache_key_spec_correct "/a/b.m4a".data (some "1700000000.0".data)
      "whisper-1".data none none).2.2.2 (some "1700000000.0".data) rfl⟩

/-- C6: when the file exceeds the target size and the duration is
positive, the planner compresses at the clamped bitrate, which lies in
the inclusive band from 32 to 128 kbps. -/
theorem compress_plan_bitrate_bounds (file_size_mb durationSeconds target_mb : ℚ)
    (hfs : target_mb < file_size_mb) (hd : 0 < durationSeconds) :
    ∃ k : Int, compress_audio_plan file_size_mb durationSeconds target_mb =
        .ok (.compress k) ∧ 32 ≤ k ∧ k ≤ 128 := by
  refine ⟨max 32 (min (truncQ (target_mb * 8 * 1024 / durationSeconds)) 128),
    ?_, le_max_left _ _, max_le (by norm_num) (min_le_right _ _)⟩
  unfold compress_audio_plan
  rw [if_neg (not_le.mpr hfs), if_neg (not_le.mpr hd)]

/-- C6 witness: a 100 MB file of 10 seconds against a 24 MB target. -/
theorem compress_plan_bitrate_bounds_witness :
    (24 : ℚ) < 100 ∧ (0 : ℚ) < 10 ∧
    ∃ k : Int, compress_audio_plan 100 10 24 = .ok (.compress k) ∧ 32 ≤ k ∧ k ≤ 128 :=
  ⟨by norm_num, by norm_num,
   compress_plan_bitrate_bounds 100 10 24 (by norm_num) (by norm_num)⟩

/-- C7: when the file exceeds the target size and no positive duration
is known, the planner fails with the dedicated duration error — a
specific, actionable failure distinct from any provider error — and no
compression bitrate is ever produced. -/
theorem compress_plan_duration_error (file_size_mb durationSeconds target_mb : ℚ)
    (hfs : target_mb < file_size_mb) (hd : durationSeconds ≤ 0) :
    compress_audio_plan file_size_mb durationSeconds target_mb =
      .error .durationUnknown ∧
    ∀ k, compress_audio_plan file_size_mb durationSeconds target_mb ≠
      .ok (.compress k) := by
  have heq : compress_audio_plan file_size_mb durationSeconds target_mb =
      .error .durationUnknown := by
    unfold compress_audio_plan
    rw [if_neg (not_le.mpr hfs), if_pos hd]
  refine ⟨heq, fun k hk => ?_⟩
  rw [heq] at hk
  exact Except.noConfusion hk

/-- C7 witness: a 100 MB file whose duration probe returned zero. -/
theorem compress_plan_duration_error_witness :
    compress_audio_plan 100 0 24 = .error .durationUnknown :=
  (compress_plan_duration_error 100 0 24 (by norm_num) (by norm_num)).1

/-- C3: the three-line scenario normalizes to exactly two segments: the
two Speaker A lines merged with their texts joined by one space, start 0
and end 10 (the next segment's start), and the Speaker B line with start
10 and no end. -/
theorem parse_gemini_diarization_scenario :
    parse_gemini_diarization
      "[Speaker A, 0:00] Hello.\n[Speaker A, 0:05] More.\n[Speaker B, 0:10] Hi.".data =
    [⟨"Speaker A".data, "Hello. More.".data, some 0, some 10⟩,
     ⟨"Speaker B".data, "Hi.".data, some 10, none⟩] := by
  decide

/-- C9 counterexample: both lines carry a recognized marker, the first
line opens a Speaker A segment with an empty text buffer, and the second
marker line discards it instead of appending it — the normalizer's
output contains no Speaker A segment at all, refuting the claim that a
previously open segment always appears in the output regardless of how
much text it accumulated. -/
theorem parse_gemini_drops_empty_open_segment :
    findMarker (strip "[Speaker A, 0:00]".data) ≠ none ∧
    findMarker (strip "[Speaker B, 0:05] Hi.".data) ≠ none ∧
    parse_gemini_diarization "[Speaker A, 0:00]\n[Speaker B, 0:05] Hi.".data =
      [⟨"Speaker B".data, "Hi.".data, some 5, none⟩] ∧
    ∀ s ∈ parse_gemini_diarization "[Speaker A, 0:00]\n[Speaker B, 0:05] Hi.".data,
      s.speaker ≠ "Speaker A".data := by
  decide

/-- C9 amended: when a line with a recognized marker is processed while
a segment is open, the open segment is appended to the result exactly
when its accumulated text buffer is non-empty; an open segment with an
empty buffer is discarded. -/
theorem processLine_marker_close (st : PState) (rawLine : List Char)
    (hit : MarkerHit) (sp : List Char)
    (hline : strip rawLine ≠ [])
    (hfind : findMarker (strip rawLine) = some hit)
    (hsp : st.curSpeaker = some sp) :
    (st.curText ≠ [] →
      (processLine st rawLine).segments = st.segments ++
        [⟨sp, strip (joinSp st.curText), parse_timestamp st.curTime, none⟩]) ∧
    (st.curText = [] → (processLine st rawLine).segments = st.segments) := by
  cases hsl : strip rawLine with
  | nil => exact absurd hsl hline
  | cons c cs =>
    rw [hsl] at hfind
    constructor
    · intro hne
      simp [processLine, hsl, hfind, closeSeg, hsp, hne]
    · intro hemp
      simp [processLine, hsl, hfind, closeSeg, hsp, hemp]

/-- C9 amended witness: a marker line processed with a non-empty open
segment appends that segment. -/
theorem processLine_marker_close_witness :
    (processLine ⟨[], some "Speaker A".data, ["Hello".data], none⟩
        "[Speaker B] x".data).segments =
      [] ++ [⟨"Speaker A".data, strip (joinSp ["Hello".data]),
              parse_timestamp none, none⟩] :=
  (processLine_marker_close ⟨[], some "Speaker A".data, ["Hello".data], none⟩
    "[Speaker B] x".data ⟨'B', none, "x".data⟩ "Speaker A".data
    (by decide) (by decide) rfl).1 (by decide)

/-! ### Lemmas for the marker loop -/

theorem processLine_initial (l : List Char) (hl : findMarker (strip l) = none) :
    processLine ⟨[], none, [], none⟩ l = ⟨[], none, [], none⟩ := by
  cases hsl : strip l with
  | nil => simp [processLine, hsl]
  | cons c cs =>
    rw [hsl] at hl
    simp [processLine, hsl, hl]

theorem foldl_processLine_initial (lines : List (List Char))
    (h : ∀ l ∈ lines, findMarker (strip l) = none) :
    lines.foldl processLine ⟨[], none, [], none⟩ = ⟨[], none, [], none⟩ := by
  induction lines with
  | nil => rfl
  | cons l ls ih =>
    rw [List.foldl_cons, processLine_initial l (h l (List.mem_cons_self l ls))]
    exact ih fun x hx => h x (List.mem_cons_of_mem l hx)

/-- C8: a raw text none of whose (stripped) lines carries a recognized
speaker marker normalizes to the empty segment list; the normalizer is a
total function, so it can never raise, and the caller falls back to the
raw text. -/
theorem parse_gemini_diarization_no_marker (text : List Char)
    (h : ∀ l ∈ splitOnChar '\n' text, findMarker (strip l) = none) :
    parse_gemini_diarization text = [] := by
  show inferEnds (mergeSegments (closeSeg
    ((splitOnChar '\n' text).foldl processLine ⟨[], none, [], none⟩))) = []
  rw [foldl_processLine_initial _ h]
  rfl

/-- C8 witness: a concrete marker-free text. -/
theorem parse_gemini_diarization_no_marker_witness :
    parse_gemini_diarization "This is plain text.\nAnother line, no markers.".data = [] :=
  parse_gemini_diarization_no_marker
    "This is plain text.\nAnother line, no markers.".data (by decide)

/-! ### Lemmas for the merge pass -/

theorem mergeStep_chain (acc : List Segment) (seg : Segment)
    (h : List.Chain' (fun a b : Segment => a.speaker ≠ b.speaker) acc) :
    List.Chain' (fun a b : Segment => a.speaker ≠ b.speaker) (mergeStep acc seg) := by
  rcases List.eq_nil_or_concat' acc with rfl | ⟨l, last, rfl⟩
  · simp [mergeStep]
  · simp only [mergeStep, List.getLast?_concat]
    split_ifs with hsp
    · rw [List.dropLast_concat]
      rw [List.chain'_append] at h ⊢
      refine ⟨h.1, List.chain'_singleton _, ?_⟩
      intro x hx y hy
      simp only [List.head?_cons, Option.mem_def, Option.some.injEq] at hy
      subst hy
      simpa using h.2.2 x hx last (by simp)
    · rw [List.chain'_append]
      refine ⟨h, List.chain'_singleton _, ?_⟩
      intro x hx y hy
      rw [List.getLast?_concat] at hx
      simp only [List.head?_cons, Option.mem_def, Option.some.injEq] at hx hy
      subst hx
      subst hy
      exact hsp

theorem foldl_mergeStep_chain (segs : List Segment) :
    ∀ acc, List.Chain' (fun a b : Segment => a.speaker ≠ b.speaker) acc →
      List.Chain' (fun a b : Segment => a.speaker ≠ b.speaker)
        (segs.foldl mergeStep acc) := by
  induction segs with
  | nil => exact fun acc h => h
  | cons s ss ih => exact fun acc h => ih _ (mergeStep_chain acc s h)

theorem mergeSegments_chain (segs : List Segment) :
    List.Chain' (fun a b : Segment => a.speaker ≠ b.speaker) (mergeSegments segs) :=
  foldl_mergeStep_chain segs [] (by simp)

/-! ### Lemmas for the end-time pass -/

theorem inferEnds_map_speaker (l : List Segment) :
    (inferEnds l).map Segment.speaker = l.map Segment.speaker := by
  induction l with
  | nil => rfl
  | cons s rest ih =>
    cases rest with
    | nil => rfl
    | cons t rs =>
      simp only [inferEnds]
      cases h : t.start <;> simp_all

/-- C1: for every raw input text, no two adjacent segments of the
normalizer's output share a speaker label — the merge pass concatenated
any same-speaker run into its first segment. -/
theorem parse_gemini_diarization_merge_invariant (text : List Char) :
    List.Chain' (fun a b : Segment => a.speaker ≠ b.speaker)
      (parse_gemini_diarization text) := by
  show List.Chain' _ (inferEnds (mergeSegments (closeSeg
    ((splitOnChar '\n' text).foldl processLine ⟨[], none, [], none⟩))))
  have h := mergeSegments_chain (closeSeg
    ((splitOnChar '\n' text).foldl processLine ⟨[], none, [], none⟩))
  have h2 : List.Chain' (fun a b : List Char => a ≠ b)
      ((inferEnds (mergeSegments (closeSeg
        ((splitOnChar '\n' text).foldl processLine ⟨[], none, [], none⟩)))).map
          Segment.speaker) := by
    rw [inferEnds_map_speaker]
    exact (List.chain'_map _).mpr h
  exact (List.chain'_map _).mp h2

theorem closeSeg_endTime (st : PState) (h : ∀ s ∈ st.segments, s.endTime = none) :
    ∀ s ∈ closeSeg st, s.endTime = none := by
  intro s hs
  rcases hc : st.curSpeaker with _ | sp
  · simp only [closeSeg, hc] at hs
    exact h s hs
  · simp only [closeSeg, hc] at hs
    split_ifs at hs with ht
    · exact h s hs
    · rcases List.mem_append.mp hs with h1 | h1
      · exact h s h1
      · simp only [List.mem_singleton] at h1
        subst h1
        rfl

theorem processLine_endTime (st : PState) (l : List Char)
    (h : ∀ s ∈ st.segments, s.endTime = none) :
    ∀ s ∈ (processLine st l).segments, s.endTime = none := by
  intro s hs
  cases hsl : strip l with
  | nil =>
    simp only [processLine, hsl] at hs
    exact h s hs
  | cons c cs =>
    cases hf : findMarker (c :: cs) with
    | some hit =>
      simp only [processLine, hsl, hf] at hs
      exact closeSeg_endTime st h s hs
    | none =>
      cases hcur : st.curSpeaker with
      | some sp =>
        simp only [processLine, hsl, hf, hcur] at hs
        exact h s hs
      | none =>
        simp only [processLine, hsl, hf, hcur] at hs
        exact h s hs

theorem foldl_processLine_endTime (lines : List (List Char)) :
    ∀ st : PState, (∀ s ∈ st.segments, s.endTime = none) →
      ∀ s ∈ (lines.foldl processLine st).segments, s.endTime = none := by
  induction lines with
  | nil => exact fun st h => h
  | cons l ls ih => exact fun st h => ih _ (processLine_endTime st l h)

theorem mergeStep_endTime (acc : List Segment) (seg : Segment)
    (hacc : ∀ s ∈ acc, s.endTime = none) (hseg : seg.endTime = none) :
    ∀ s ∈ mergeStep acc seg, s.endTime = none := by
  intro s hs
  rcases List.eq_nil_or_concat' acc with rfl | ⟨l, last, rfl⟩
  · simp only [mergeStep, List.getLast?_nil] at hs
    simp only [List.mem_singleton] at hs
    subst hs
    exact hseg
  · simp only [mergeStep, List.getLast?_concat] at hs
    split_ifs at hs with hsp
    · rw [List.dropLast_concat] at hs
      rcases List.mem_append.mp hs with h1 | h1
      · exact hacc s (List.mem_append.mpr (Or.inl h1))
      · simp only [List.mem_singleton] at h1
        subst h1
        simpa using hacc last (by simp)
    · rcases List.mem_append.mp hs with h1 | h1
      · exact hacc s h1
      · simp only [List.mem_singleton] at h1
        subst h1
        exact hseg

theorem foldl_mergeStep_endTime (segs : List Segment) :
    ∀ acc : List Segment, (∀ s ∈ acc, s.endTime = none) →
      (∀ s ∈ segs, s.endTime = none) →
      ∀ s ∈ segs.foldl mergeStep acc, s.endTime = none := by
  induction segs with
  | nil => exact fun acc hacc _ => hacc
  | cons x xs ih =>
    intro acc hacc hsegs
    rw [List.foldl_cons]
    exact ih _ (mergeStep_endTime acc x hacc (hsegs x (List.mem_cons_self x xs)))
      fun s hs => hsegs s (List.mem_cons_of_mem x hs)

theorem mergeSegments_endTime (segs : List Segment)
    (h : ∀ s ∈ segs, s.endTime = none) :
    ∀ s ∈ mergeSegments segs, s.endTime = none :=
  foldl_mergeStep_endTime segs [] (by simp) h

/-- The head of the end-time pass keeps the head's start time. -/
theorem inferEnds_cons (t : Segment) (rs : List Segment) :
    ∃ t' rest', inferEnds (t :: rs) = t' :: rest' ∧ t'.start = t.start := by
  cases rs with
  | nil => exact ⟨t, [], rfl, rfl⟩
  | cons r rs' =>
    cases h : r.start with
    | none => exact ⟨t, inferEnds (r :: rs'), by simp [inferEnds, h], rfl⟩
    | some v => exact ⟨{ t with endTime := some v }, inferEnds (r :: rs'),
        by simp [inferEnds, h], rfl⟩

/-- Full characterization of the end-time pass on a list whose end times
are all still unset: every position's end time equals the next
position's start time when that exists, and is unset otherwise. -/
theorem inferEnds_get? (l : List Segment) (hl : ∀ s ∈ l, s.endTime = none) :
    ∀ (i : Nat) (si : Segment), (inferEnds l).get? i = some si →
      si.endTime = ((inferEnds l).get? (i + 1)).bind Segment.start := by
  induction l with
  | nil => intro i si hsi; simp [inferEnds] at hsi
  | cons s rest ih =>
    cases rest with
    | nil =>
      intro i si hsi
      cases i with
      | zero =>
        simp only [inferEnds, List.get?_cons_zero, Option.some.injEq] at hsi
        subst hsi
        simpa using hl s (by simp)
      | succ j => simp [inferEnds] at hsi
    | cons t rs =>
      have hdef : inferEnds (s :: t :: rs) =
          (match t.start with
           | some v => { s with endTime := some v }
           | none => s) :: inferEnds (t :: rs) := rfl
      intro i si hsi
      rw [hdef] at hsi
      rw [hdef]
      cases i with
      | zero =>
        rw [List.get?_cons_zero] at hsi
        rw [List.get?_cons_succ]
        obtain ⟨t', rest', heq, hstart⟩ := inferEnds_cons t rs
        rw [heq, List.get?_cons_zero]
        obtain rfl := Option.some.inj hsi
        cases hts : t.start with
        | none => simp [hts, hstart, hl s (by simp)]
        | some v => simp [hts, hstart]
      | succ j =>
        rw [List.get?_cons_succ] at hsi
        rw [List.get?_cons_succ]
        exact ih (fun x hx => hl x (List.mem_cons_of_mem _ hx)) j si hsi

/-- C2: in the normalizer's output, each segment's end time equals the
next segment's start time whenever the next segment exists and its start
is known, and is null otherwise — in particular a segment's end is never
derived from its own content, and the last segment's end time is always
null. -/
theorem parse_gemini_diarization_end_inference (text : List Char) :
    (∀ (i : Nat) (si : Segment), (parse_gemini_diarization text).get? i = some si →
      si.endTime = ((parse_gemini_diarization text).get? (i + 1)).bind Segment.start) ∧
    (∀ h2 : parse_gemini_diarization text ≠ [],
      ((parse_gemini_diarization text).getLast h2).endTime = none) := by
  have hnone : ∀ s ∈ mergeSegments (closeSeg
      ((splitOnChar '\n' text).foldl processLine ⟨[], none, [], none⟩)),
      s.endTime = none :=
    mergeSegments_endTime _ (closeSeg_endTime _
      (foldl_processLine_endTime _ _ (by simp)))
  have hchar := inferEnds_get? _ hnone
  have hmain : ∀ (i : Nat) (si : Segment),
      (parse_gemini_diarization text).get? i = some si →
      si.endTime = ((parse_gemini_diarization text).get? (i + 1)).bind Segment.start :=
    fun i si hsi => hchar i si hsi
  refine ⟨hmain, fun h2 => ?_⟩
  have hlen : 0 < (parse_gemini_diarization text).length := List.length_pos.mpr h2
  have hval : (parse_gemini_diarization text).get?
      ((parse_gemini_diarization text).length - 1) =
      some ((parse_gemini_diarization text).getLast h2) := by
    rw [List.getLast_eq_get]
    exact List.get?_eq_get (by omega)
  have hres := hmain _ _ hval
  have hplus : (parse_gemini_diarization text).length - 1 + 1 =
      (parse_gemini_diarization text).length := by omega
  rw [hplus] at hres
  rw [hres, List.get?_eq_none.mpr (le_refl _)]
  rfl

/-- C2 witness: the first segment of a concrete two-segment output has
the second segment's start time as its end time. -/
theorem parse_gemini_diarization_end_inference_witness :
    ((Segment.mk "Speaker A".data "Hello.".data (some 0) (some 10)).endTime =
      ((parse_gemini_diarization
        "[Speaker A, 0:00] Hello.\n[Speaker B, 0:10] Hi.".data).get? 1).bind
        Segment.start) ∧
    ((parse_gemini_diarization
        "[Speaker A, 0:00] Hello.\n[Speaker B, 0:10] Hi.".data).getLast
      (by decide)).endTime = none :=
  ⟨(parse_gemini_diarization_end_inference
      "[Speaker A, 0:00] Hello.\n[Speaker B, 0:10] Hi.".data).1 0
      (Segment.mk "Speaker A".data "Hello.".data (some 0) (some 10)) (by decide),
   (parse_gemini_diarization_end_inference
      "[Speaker A, 0:00] Hello.\n[Speaker B, 0:10] Hi.".data).2 (by decide)⟩

/-! ### Speaker-shape lemmas -/

theorem matchP1_upper : ∀ (s : List Char) (c : Char) (ts : Option (List Char))
    (r : List Char), matchP1 s = some (c, ts, r) → isUpperC c = true := by
  intro s c ts r h
  unfold matchP1 at h
  repeat' split at h
  all_goals simp_all

theorem matchP2_upper : ∀ (s : List Char) (c : Char) (ts : Option (List Char))
    (r : List Char), matchP2 s = some (c, ts, r) → isUpperC c = true := by
  intro s c ts r h
  unfold matchP2 at h
  repeat' split at h
  all_goals simp_all

theorem matchP3_upper : ∀ (s : List Char) (c : Char) (ts : Option (List Char))
    (r : List Char), matchP3 s = some (c, ts, r) → isUpperC c = true := by
  intro s c ts r h
  unfold matchP3 at h
  repeat' split at h
  all_goals simp_all

theorem matchP4_upper : ∀ (s : List Char) (c : Char) (ts : Option (List Char))
    (r : List Char), matchP4 s = some (c, ts, r) → isUpperC c = true := by
  intro s c ts r h
  unfold matchP4 at h
  repeat' split at h
  all_goals simp_all

theorem matchP5_upper : ∀ (s : List Char) (c : Char) (ts : Option (List Char))
    (r : List Char), matchP5 s = some (c, ts, r) → isUpperC c = true := by
  intro s c ts r h
  unfold matchP5 at h
  repeat' split at h
  all_goals simp_all

theorem matchP6_upper : ∀ (s : List Char) (c : Char) (ts : Option (List Char))
    (r : List Char), matchP6 s = some (c, ts, r) → isUpperC c = true := by
  intro s c ts r h
  unfold matchP6 at h
  repeat' split at h
  all_goals simp_all

theorem searchPat_upper {m : List Char → Option (Char × Option (List Char) × List Char)}
    (hm : ∀ s c ts r, m s = some (c, ts, r) → isUpperC c = true) :
    ∀ s c ts r, searchPat m s = some (c, ts, r) → isUpperC c = true := by
  intro s
  induction s with
  | nil => exact fun c ts r h => hm [] c ts r h
  | cons a as ih =>
    intro c ts r h
    rw [searchPat] at h
    rcases hma : m (a :: as) with _ | ⟨c0, ts0, r0⟩
    · rw [hma] at h
      exact ih c ts r h
    · rw [hma] at h
      have h' : some (c0, ts0, r0) = some (c, ts, r) := h
      obtain ⟨rfl, rfl, rfl⟩ : c0 = c ∧ ts0 = ts ∧ r0 = r := by
        simpa using h'
      exact hm _ _ _ _ hma

theorem tryPattern_upper {m : List Char → Option (Char × Option (List Char) × List Char)}
    (hm : ∀ s c ts r, m s = some (c, ts, r) → isUpperC c = true) :
    ∀ line hit, tryPattern m line = some hit → isUpperC hit.speaker = true := by
  intro line hit h
  unfold tryPattern at h
  rcases hs : searchPat m line with _ | ⟨c, ts, r⟩
  · rw [hs] at h
    exact Option.noConfusion h
  · rw [hs] at h
    have h' : some (MarkerHit.mk c ts (strip (subAll m line))) = some hit := h
    obtain rfl := Option.some.inj h'
    exact searchPat_upper hm line c ts r hs

theorem findMarker_upper : ∀ (line : List Char) (hit : MarkerHit),
    findMarker line = some hit → isUpperC hit.speaker = true := by
  intro line hit h
  unfold findMarker at h
  rcases e1 : tryPattern matchP1 line with _ | h1 <;> rw [e1] at h
  case some => exact Option.some.inj h ▸ tryPattern_upper matchP1_upper line h1 e1
  rcases e2 : tryPattern matchP2 line with _ | h2 <;> rw [e2] at h
  case some => exact Option.some.inj h ▸ tryPattern_upper matchP2_upper line h2 e2
  rcases e3 : tryPattern matchP3 line with _ | h3 <;> rw [e3] at h
  case some => exact Option.some.inj h ▸ tryPattern_upper matchP3_upper line h3 e3
  rcases e4 : tryPattern matchP4 line with _ | h4 <;> rw [e4] at h
  case some => exact Option.some.inj h ▸ tryPattern_upper matchP4_upper line h4 e4
  rcases e5 : tryPattern matchP5 line with _ | h5 <;> rw [e5] at h
  case some => exact Option.some.inj h ▸ tryPattern_upper matchP5_upper line h5 e5
  exact tryPattern_upper matchP6_upper line hit h

/-- The shape every speaker label of the normalizer has: the word
Speaker, a space, and one uppercase letter. -/
def GoodSpeaker (sp : List Char) : Prop :=
  ∃ c ∈ upperLetters, sp = "Speaker ".data ++ [c]

theorem closeSeg_goodSpeaker (st : PState)
    (hsegs : ∀ s ∈ st.segments, GoodSpeaker s.speaker)
    (hcur : ∀ sp, st.curSpeaker = some sp → GoodSpeaker sp) :
    ∀ s ∈ closeSeg st, GoodSpeaker s.speaker := by
  intro s hs
  rcases hc : st.curSpeaker with _ | sp
  · simp only [closeSeg, hc] at hs
    exact hsegs s hs
  · simp only [closeSeg, hc] at hs
    split_ifs at hs with ht
    · exact hsegs s hs
    · rcases List.mem_append.mp hs with h1 | h1
      · exact hsegs s h1
      · simp only [List.mem_singleton] at h1
        subst h1
        exact hcur sp hc

theorem processLine_goodSpeaker (st : PState) (l : List Char)
    (hsegs : ∀ s ∈ st.segments, GoodSpeaker s.speaker)
    (hcur : ∀ sp, st.curSpeaker = some sp → GoodSpeaker sp) :
    (∀ s ∈ (processLine st l).segments, GoodSpeaker s.speaker) ∧
    (∀ sp, (processLine st l).curSpeaker = some sp → GoodSpeaker sp) := by
  cases hsl : strip l with
  | nil =>
    constructor
    · intro s hs
      simp only [processLine, hsl] at hs
      exact hsegs s hs
    · intro sp hsp
      simp only [processLine, hsl] at hsp
      exact hcur sp hsp
  | cons c cs =>
    cases hf : findMarker (c :: cs) with
    | some hit =>
      constructor
      · intro s hs
        simp only [processLine, hsl, hf] at hs
        exact closeSeg_goodSpeaker st hsegs hcur s hs
      · intro sp hsp
        simp only [processLine, hsl, hf] at hsp
        obtain rfl := Option.some.inj hsp.symm
        exact ⟨hit.speaker,
          of_decide_eq_true (findMarker_upper (c :: cs) hit hf), rfl⟩
    | none =>
      cases hcurval : st.curSpeaker with
      | some sp0 =>
        constructor
        · intro s hs
          simp only [processLine, hsl, hf, hcurval] at hs
          exact hsegs s hs
        · intro sp hsp
          simp only [processLine, hsl, hf, hcurval] at hsp
          exact hcur sp (hcurval.trans hsp)
      | none =>
        constructor
        · intro s hs
          simp only [processLine, hsl, hf, hcurval] at hs
          exact hsegs s hs
        · intro sp hsp
          simp only [processLine, hsl, hf, hcurval] at hsp
          exact Option.noConfusion hsp

theorem foldl_processLine_goodSpeaker (lines : List (List Char)) :
    ∀ st : PState, (∀ s ∈ st.segments, GoodSpeaker s.speaker) →
      (∀ sp, st.curSpeaker = some sp → GoodSpeaker sp) →
      (∀ s ∈ (lines.foldl processLine st).segments, GoodSpeaker s.speaker) ∧
      (∀ sp, (lines.foldl processLine st).curSpeaker = some sp → GoodSpeaker sp) := by
  induction lines with
  | nil => exact fun st h1 h2 => ⟨h1, h2⟩
  | cons l ls ih =>
    intro st h1 h2
    rw [List.foldl_cons]
    obtain ⟨g1, g2⟩ := processLine_goodSpeaker st l h1 h2
    exact ih _ g1 g2

theorem mergeStep_goodSpeaker (acc : List Segment) (seg : Segment)
    (hacc : ∀ s ∈ acc, GoodSpeaker s.speaker) (hseg : GoodSpeaker seg.speaker) :
    ∀ s ∈ mergeStep acc seg, GoodSpeaker s.speaker := by
  intro s hs
  rcases List.eq_nil_or_concat' acc with rfl | ⟨l, last, rfl⟩
  · simp only [mergeStep, List.getLast?_nil, List.mem_singleton] at hs
    subst hs
    exact hseg
  · simp only [mergeStep, List.getLast?_concat] at hs
    split_ifs at hs with hsp
    · rw [List.dropLast_concat] at hs
      rcases List.mem_append.mp hs with h1 | h1
      · exact hacc s (List.mem_append.mpr (Or.inl h1))
      · simp only [List.mem_singleton] at h1
        subst h1
        simpa using hacc last (by simp)
    · rcases List.mem_append.mp hs with h1 | h1
      · exact hacc s h1
      · simp only [List.mem_singleton] at h1
        subst h1
        exact hseg

theorem foldl_mergeStep_goodSpeaker (segs : List Segment) :
    ∀ acc : List Segment, (∀ s ∈ acc, GoodSpeaker s.speaker) →
      (∀ s ∈ segs, GoodSpeaker s.speaker) →
      ∀ s ∈ segs.foldl mergeStep acc, GoodSpeaker s.speaker := by
  induction segs with
  | nil => exact fun acc hacc _ => hacc
  | cons x xs ih =>
    intro acc hacc hsegs
    rw [List.foldl_cons]
    exact ih _ (mergeStep_goodSpeaker acc x hacc (hsegs x (List.mem_cons_self x xs)))
      fun s hs => hsegs s (List.mem_cons_of_mem x hs)

theorem inferEnds_goodSpeaker (l : List Segment)
    (h : ∀ s ∈ l, GoodSpeaker s.speaker) :
    ∀ s ∈ inferEnds l, GoodSpeaker s.speaker := by
  intro s hs
  have hmem : s.speaker ∈ (inferEnds l).map Segment.speaker :=
    List.mem_map_of_mem _ hs
  rw [inferEnds_map_speaker] at hmem
  obtain ⟨s', hs', heq⟩ := List.mem_map.mp hmem
  exact heq ▸ h s' hs'

/-- C10: every segment the normalizer emits has a speaker label of the
exact form Speaker-space-letter with the letter one of the 26 uppercase
ASCII letters, so any normalized result carries at most 26 distinct
speaker labels. -/
theorem parse_gemini_diarization_speaker_form (text : List Char) :
    (∀ s ∈ parse_gemini_diarization text,
      ∃ c ∈ upperLetters, s.speaker = "Speaker ".data ++ [c]) ∧
    ((parse_gemini_diarization text).map Segment.speaker).toFinset.card ≤ 26 := by
  have hmain : ∀ s ∈ parse_gemini_diarization text, GoodSpeaker s.speaker := by
    show ∀ s ∈ inferEnds (mergeSegments (closeSeg
      ((splitOnChar '\n' text).foldl processLine ⟨[], none, [], none⟩))),
      GoodSpeaker s.speaker
    apply inferEnds_goodSpeaker
    apply foldl_mergeStep_goodSpeaker _ [] (by simp)
    obtain ⟨g1, g2⟩ := foldl_processLine_goodSpeaker (splitOnChar '\n' text)
      ⟨[], none, [], none⟩ (by simp) (by simp)
    exact closeSeg_goodSpeaker _ g1 g2
  refine ⟨hmain, ?_⟩
  have hsub : ((parse_gemini_diarization text).map Segment.speaker).toFinset ⊆
      (upperLetters.map (fun c => "Speaker ".data ++ [c])).toFinset := by
    intro x hx
    rw [List.mem_toFinset] at hx ⊢
    obtain ⟨s, hs, rfl⟩ := List.mem_map.mp hx
    obtain ⟨c, hc, heq⟩ := hmain s hs
    rw [heq]
    exact List.mem_map_of_mem _ hc
  calc ((parse_gemini_diarization text).map Segment.speaker).toFinset.card
      ≤ (upperLetters.map (fun c => "Speaker ".data ++ [c])).toFinset.card :=
        Finset.card_le_card hsub
    _ ≤ (upperLetters.map (fun c => "Speaker ".data ++ [c])).length :=
        List.toFinset_card_le _
    _ = 26 := by simp [upperLetters]

/-- C10 witness: the segment of a concrete one-segment output carries a
label of the required shape. -/
theorem parse_gemini_diarization_speaker_form_witness :
    ∃ c ∈ upperLetters,
      (Segment.mk "Speaker B".data "Hi.".data (some 5) none).speaker =
        "Speaker ".data ++ [c] :=
  (parse_gemini_diarization_speaker_form "[Speaker B, 0:05] Hi.".data).1
    (Segment.mk "Speaker B".data "Hi.".data (some 5) none) (by decide)

/-! ### Decimal numeral lemmas for the timestamp parser -/

theorem isDigitC_bounds {c : Char} (h : isDigitC c = true) : '0' ≤ c ∧ c ≤ '9' := by
  unfold isDigitC at h
  rw [Bool.and_eq_true] at h
  exact ⟨of_decide_eq_true h.1, of_decide_eq_true h.2⟩

theorem isDigitC_not_space {c : Char} (h : isDigitC c = true) :
    isSpaceC c = false := by
  obtain ⟨h1, h2⟩ := isDigitC_bounds h
  unfold isSpaceC
  have e1 : c ≠ ' ' := by rintro rfl; exact absurd h1 (by decide)
  have e2 : c ≠ '\t' := by rintro rfl; exact absurd h1 (by decide)
  have e3 : c ≠ '\n' := by rintro rfl; exact absurd h1 (by decide)
  have e4 : c ≠ '\r' := by rintro rfl; exact absurd h1 (by decide)
  have e5 : c ≠ '\x0b' := by rintro rfl; exact absurd h1 (by decide)
  have e6 : c ≠ '\x0c' := by rintro rfl; exact absurd h1 (by decide)
  simp [e1, e2, e3, e4, e5, e6]

theorem isDigitC_ne_sign {c : Char} (h : isDigitC c = true) :
    c ≠ '-' ∧ c ≠ '+' := by
  obtain ⟨h1, _⟩ := isDigitC_bounds h
  constructor
  · rintro rfl; exact absurd h1 (by decide)
  · rintro rfl; exact absurd h1 (by decide)

theorem isDigitC_ne_colon {c : Char} (h : isDigitC c = true) : c ≠ ':' := by
  obtain ⟨_, h2⟩ := isDigitC_bounds h
  rintro rfl; exact absurd h2 (by decide)

theorem isDigitC_ne_underscore {c : Char} (h : isDigitC c = true) : c ≠ '_' := by
  obtain ⟨_, h2⟩ := isDigitC_bounds h
  rintro rfl; exact absurd h2 (by decide)

theorem isDigitC_not_pyspace {c : Char} (h : isDigitC c = true) :
    isPySpaceC c = false := by
  unfold isPySpaceC
  apply decide_eq_false
  intro hmem
  have hall : ∀ x ∈ pyIntSpace, isDigitC x = false := by decide
  rw [hall c hmem] at h
  exact Bool.noConfusion h

/-- On an ASCII digit the table lookup is the ASCII fast path. -/
theorem pyDigitVal_ascii {c : Char} (h : isDigitC c = true) :
    pyDigitVal c = some (c.toNat - 48) := by
  unfold pyDigitVal
  rw [if_pos h]

theorem dropWhile_eq_self {p : Char → Bool} {l : List Char}
    (h : ∀ c ∈ l, p c = false) : l.dropWhile p = l := by
  cases l with
  | nil => rfl
  | cons c cs =>
    rw [List.dropWhile_cons, h c (List.mem_cons_self c cs)]
    simp

theorem strip_eq_self {l : List Char} (h : ∀ c ∈ l, isSpaceC c = false) :
    strip l = l := by
  unfold strip stripEnd
  rw [dropWhile_eq_self h,
    dropWhile_eq_self fun c hc => h c (List.mem_reverse.mp hc),
    List.reverse_reverse]

theorem pyStrip_eq_self {l : List Char} (h : ∀ c ∈ l, isPySpaceC c = false) :
    pyStrip l = l := by
  unfold pyStrip
  rw [dropWhile_eq_self h,
    dropWhile_eq_self fun c hc => h c (List.mem_reverse.mp hc),
    List.reverse_reverse]

/-- The accumulator's step on an ASCII digit. -/
theorem digitsAcc_cons_digit {c : Char} (hc : isDigitC c = true)
    (acc : Nat) (cs : List Char) :
    digitsAcc acc (c :: cs) = digitsAcc (10 * acc + (c.toNat - 48)) cs := by
  rw [digitsAcc.eq_def]
  simp only [if_neg (isDigitC_ne_underscore hc), pyDigitVal_ascii hc]

theorem digitsAcc_append (xs ys : List Char)
    (hxs : ∀ c ∈ xs, isDigitC c = true) :
    ∀ acc : Nat, digitsAcc acc (xs ++ ys) =
      (digitsAcc acc xs).bind fun a => digitsAcc a ys := by
  induction xs with
  | nil => intro acc; rfl
  | cons c cs ih =>
    intro acc
    have hc := hxs c (List.mem_cons_self c cs)
    rw [List.cons_append, digitsAcc_cons_digit hc, digitsAcc_cons_digit hc]
    exact ih (fun x hx => hxs x (List.mem_cons_of_mem c hx)) _

theorem digitChar_val {d : Nat} (hd : d < 10) :
    isDigitC (digitChar d) = true ∧ (digitChar d).toNat - 48 = d := by
  interval_cases d <;> exact ⟨by decide, by decide⟩

theorem digitsAcc_decimal (L : List Nat) (hL : ∀ d ∈ L, d < 10) :
    ∀ acc : Nat, digitsAcc acc ((L.map digitChar).reverse) =
      some (acc * 10 ^ L.length + Nat.ofDigits 10 L) := by
  induction L with
  | nil =>
    intro acc
    simp [digitsAcc, Nat.ofDigits]
  | cons d L ih =>
    intro acc
    have hdig : ∀ c ∈ (L.map digitChar).reverse, isDigitC c = true := by
      intro c hc
      rw [List.mem_reverse, List.mem_map] at hc
      obtain ⟨x, hx, rfl⟩ := hc
      exact (digitChar_val (hL x (List.mem_cons_of_mem d hx))).1
    obtain ⟨h1, h2⟩ := digitChar_val (hL d (List.mem_cons_self d L))
    rw [List.map_cons, List.reverse_cons, digitsAcc_append _ _ hdig,
      ih fun x hx => hL x (List.mem_cons_of_mem d hx),
      Option.some_bind, digitsAcc_cons_digit h1, h2,
      Nat.ofDigits_cons, List.length_cons]
    simp only [digitsAcc, Option.some.injEq]
    ring

theorem decimalChars_ne_nil (n : Nat) : decimalChars n ≠ [] := by
  unfold decimalChars
  by_cases hn : n = 0
  · simp [hn]
  · rw [if_neg hn]
    simp [Nat.digits_ne_nil_iff_ne_zero.mpr hn]

theorem decimalChars_digits (n : Nat) :
    ∀ c ∈ decimalChars n, isDigitC c = true := by
  intro c hc
  unfold decimalChars at hc
  by_cases hn : n = 0
  · rw [if_pos hn] at hc
    simp only [List.mem_singleton] at hc
    subst hc
    decide
  · rw [if_neg hn] at hc
    rw [List.mem_reverse, List.mem_map] at hc
    obtain ⟨d, hd, rfl⟩ := hc
    exact (digitChar_val (Nat.digits_lt_base (by norm_num) hd)).1

theorem digitsToNat_decimal (n : Nat) : digitsToNat (decimalChars n) = some n := by
  by_cases hn : n = 0
  · subst hn
    decide
  · cases hd : decimalChars n with
    | nil => exact absurd hd (decimalChars_ne_nil n)
    | cons c cs =>
      have hc : isDigitC c = true :=
        decimalChars_digits n c (hd ▸ List.mem_cons_self c cs)
      have hacc : digitsAcc 0 (decimalChars n) = some n := by
        unfold decimalChars
        rw [if_neg hn]
        rw [digitsAcc_decimal _ fun d hd' => Nat.digits_lt_base (by norm_num) hd']
        simp [Nat.ofDigits_digits]
      rw [hd] at hacc
      simp only [digitsToNat, if_neg (isDigitC_ne_underscore hc)]
      exact hacc

theorem pyIntChars_decimal (n : Nat) : pyIntChars (decimalChars n) = some (n : Int) := by
  unfold pyIntChars
  rw [pyStrip_eq_self fun c hc => isDigitC_not_pyspace (decimalChars_digits n c hc)]
  cases hd : decimalChars n with
  | nil => exact absurd hd (decimalChars_ne_nil n)
  | cons c cs =>
    have hc : isDigitC c = true :=
      decimalChars_digits n c (hd ▸ List.mem_cons_self c cs)
    obtain ⟨hne1, hne2⟩ := isDigitC_ne_sign hc
    have hdn : digitsToNat (c :: cs) = some n := hd ▸ digitsToNat_decimal n
    split
    · rename_i ds heq
      exact absurd (List.head_eq_of_cons_eq heq) hne1
    · rename_i ds heq
      exact absurd (List.head_eq_of_cons_eq heq) hne2
    · rw [hdn]

/-! ### Splitting lemmas -/

theorem splitOnChar_not_mem {sep : Char} {l : List Char} (h : sep ∉ l) :
    splitOnChar sep l = [l] := by
  induction l with
  | nil => rfl
  | cons c cs ih =>
    have hcne : (c == sep) = false :=
      beq_eq_false_iff_ne.mpr fun e => h (e ▸ List.mem_cons_self c cs)
    have hrest := ih fun hm => h (List.mem_cons_of_mem c hm)
    simp only [splitOnChar, hrest, hcne]

theorem splitOnChar_append {sep : Char} (a b : List Char) (h : sep ∉ a) :
    splitOnChar sep (a ++ sep :: b) = a :: splitOnChar sep b := by
  induction a with
  | nil => simp [splitOnChar]
  | cons c cs ih =>
    have hcne : (c == sep) = false :=
      beq_eq_false_iff_ne.mpr fun e => h (e ▸ List.mem_cons_self c cs)
    have hrest := ih fun hm => h (List.mem_cons_of_mem c hm)
    simp only [List.cons_append, splitOnChar, List.append_eq, hrest, hcne]

theorem colon_not_mem_decimalChars (n : Nat) : ':' ∉ decimalChars n := fun hm =>
  isDigitC_ne_colon (decimalChars_digits n ':' hm) rfl

/-- C4: the timestamp parser maps every two-component colon layout M:SS
whose components are integers in Python's sense (optionally signed,
whitespace-padded, zero-padded, underscore-grouped decimal digit
strings) to 60*M + S, every three-component layout H:MM:SS to
3600*H + 60*M + S, and in particular the canonical decimal numerals; any
other number of colon-separated components, or any component Python's
int() rejects, yields null; the function is total (never an error).  The
specification's concrete round trips hold as stated, as do zero-padded
and underscore-grouped instances. -/
theorem parse_timestamp_layouts :
    (∀ (a b : List Char) (x y : Int), ':' ∉ a → ':' ∉ b →
      pyIntChars a = some x → pyIntChars b = some y →
      parse_timestamp (some (a ++ ':' :: b)) = some (60 * x + y)) ∧
    (∀ (a b c : List Char) (x y z : Int), ':' ∉ a → ':' ∉ b → ':' ∉ c →
      pyIntChars a = some x → pyIntChars b = some y → pyIntChars c = some z →
      parse_timestamp (some (a ++ (':' :: (b ++ (':' :: c))))) =
        some (3600 * x + 60 * y + z)) ∧
    (∀ m s : Nat,
      parse_timestamp (some (decimalChars m ++ ':' :: decimalChars s)) =
        some ((60 * m + s : Nat) : Int)) ∧
    (∀ hh mm ss : Nat,
      parse_timestamp (some (decimalChars hh ++
          (':' :: (decimalChars mm ++ (':' :: decimalChars ss))))) =
        some ((3600 * hh + 60 * mm + ss : Nat) : Int)) ∧
    (∀ ts : List Char, (splitOnChar ':' ts).length ≠ 2 →
      (splitOnChar ':' ts).length ≠ 3 → parse_timestamp (some ts) = none) ∧
    (∀ ts p : List Char, p ∈ splitOnChar ':' ts → pyIntChars p = none →
      parse_timestamp (some ts) = none) ∧
    parse_timestamp (some "1:23".data) = some 83 ∧
    parse_timestamp (some "1:02:03".data) = some 3723 ∧
    parse_timestamp (some "1:05".data) = some 65 ∧
    parse_timestamp (some "01:23".data) = some 83 ∧
    parse_timestamp (some "1_0:23".data) = some 623 ∧
    parse_timestamp (some "garbage".data) = none ∧
    parse_timestamp none = none := by
  refine ⟨?_, ?_, ?_, ?_, ?_, ?_, by decide, by decide, by decide, by decide,
    by decide, by decide, rfl⟩
  · intro a b x y ha hb hxa hxb
    have hne : a ++ ':' :: b ≠ [] := by
      simp
    simp only [parse_timestamp]
    rw [if_neg hne, splitOnChar_append _ _ ha, splitOnChar_not_mem hb]
    simp only [hxa, hxb, Option.some.injEq]
    ring
  · intro a b c x y z ha hb hc hxa hxb hxc
    have hne : a ++ (':' :: (b ++ (':' :: c))) ≠ [] := by
      simp
    simp only [parse_timestamp]
    rw [if_neg hne, splitOnChar_append _ _ ha, splitOnChar_append _ _ hb,
      splitOnChar_not_mem hc]
    simp only [hxa, hxb, hxc, Option.some.injEq]
    ring
  · intro m s
    have hne : decimalChars m ++ ':' :: decimalChars s ≠ [] := by
      simp
    simp only [parse_timestamp]
    rw [if_neg hne, splitOnChar_append _ _ (colon_not_mem_decimalChars m),
      splitOnChar_not_mem (colon_not_mem_decimalChars s)]
    simp only [pyIntChars_decimal, Option.some.injEq]
    push_cast
    ring
  · intro hh mm ss
    have hne : decimalChars hh ++
        (':' :: (decimalChars mm ++ (':' :: decimalChars ss))) ≠ [] := by
      simp
    simp only [parse_timestamp]
    rw [if_neg hne, splitOnChar_append _ _ (colon_not_mem_decimalChars hh),
      splitOnChar_append _ _ (colon_not_mem_decimalChars mm),
      splitOnChar_not_mem (colon_not_mem_decimalChars ss)]
    simp only [pyIntChars_decimal, Option.some.injEq]
    push_cast
    ring
  · intro ts h2 h3
    simp only [parse_timestamp]
    by_cases hts : ts = []
    · rw [if_pos hts]
    · rw [if_neg hts]
      split
      · rename_i heq
        exact absurd (by rw [heq]; rfl) h2
      · rename_i heq
        exact absurd (by rw [heq]; rfl) h3
      · rfl
  · intro ts p hp hnone
    simp only [parse_timestamp]
    by_cases hts : ts = []
    · rw [if_pos hts]
    · rw [if_neg hts]
      split
      · rename_i a b heq
        rw [heq] at hp
        simp only [List.mem_cons, List.not_mem_nil, or_false] at hp
        rcases hp with rfl | rfl
        · rw [hnone]
        · rw [hnone]
          cases pyIntChars a <;> rfl
      · rename_i a b c heq
        rw [heq] at hp
        simp only [List.mem_cons, List.not_mem_nil, or_false] at hp
        rcases hp with rfl | rfl | rfl
        · rw [hnone]
        · rw [hnone]
          cases pyIntChars a <;> rfl
        · rw [hnone]
          cases pyIntChars a <;> cases pyIntChars b <;> rfl
      · rfl

/-- C4 witness: the general two-component clause applied at a
zero-padded concrete input, and the rejection clauses applied at a
four-component shape and at a non-integer component. -/
theorem parse_timestamp_layouts_witness :
    parse_timestamp (some ("1".data ++ ':' :: "05".data)) = some (60 * 1 + 5) ∧
    parse_timestamp (some "1:2:3:4".data) = none ∧
    parse_timestamp (some "1:x".data) = none :=
  ⟨parse_timestamp_layouts.1 "1".data "05".data 1 5 (by decide) (by decide)
      (by decide) (by decide),
   parse_timestamp_layouts.2.2.2.2.1 "1:2:3:4".data (by decide) (by decide),
   parse_timestamp_layouts.2.2.2.2.2.1 "1:x".data "x".data (by decide) (by decide)⟩

end Ambien
